import Mathlib

/-!
Shallow embedding of the competition-scoring engine of
`src/backend/api/clean_api.py` (functions `parse_criteria_value`,
`filter_similar_properties`, `analyze_competition`, and the
recommendation ranking in `get_inspections`), together with proofs of
the testable properties stated for it.

Python exceptions are modelled with `Option`: a function that can raise
returns `none` where the Python code would raise, and `some v` where it
returns `v`.  Python strings that the engine inspects character by
character are modelled as `List Char`, so that every string operation is
structurally recursive and computes inside the kernel; `"..."​.toList`
recovers the literal notation.
-/

namespace Listy

/-- Model of CPython `int(s)` on an ASCII decimal string: an optional
single leading sign followed by a nonempty run of digits.  (Surrounding
whitespace, underscore digit separators and non-ASCII digits, which
CPython also accepts, are outside the model; no input considered in this
development uses them.)  `none` models `ValueError`. -/
def digitsToNat (l : List Char) : Option Nat :=
  match l with
  | [] => none
  | _ =>
    if l.all Char.isDigit then
      some (l.foldl (fun a c => 10 * a + (c.toNat - 48)) 0)
    else
      none

/-- `pyInt s` models `int(s)` for a string `s`; see `digitsToNat`. -/
def pyInt (s : List Char) : Option Int :=
  match s with
  | '-' :: rest => (digitsToNat rest).map (fun n => -(n : Int))
  | '+' :: rest => (digitsToNat rest).map (fun n => (n : Int))
  | l => (digitsToNat l).map (fun n => (n : Int))

/-- Python `s.replace(c, '')` for a single character `c`: every
occurrence of `c` is removed. -/
def pyRemoveChar (c : Char) (s : List Char) : List Char :=
  s.filter (fun x => !(x == c))

/-- Python `s.split(c)` for a single-character separator: split on every
occurrence of `c`, keeping empty fields; the result is never empty. -/
def pySplit (c : Char) : List Char → List (List Char)
  | [] => [[]]
  | x :: xs =>
    match pySplit c xs with
    | [] => [[x]]
    | h :: t => if x = c then [] :: h :: t else (x :: h) :: t

/-- Upper bound of a criteria range: a finite integer, or `float('inf')`. -/
inductive RangeMax where
  | fin (v : Int)
  | inf
  deriving DecidableEq, Repr

/-- `x <= bed_max` in Python, where `bed_max` may be `float('inf')`:
an `int` compares normally against an `int` and is below `inf`. -/
def leMax (x : Int) : RangeMax → Bool
  | .fin v => x ≤ v
  | .inf => true

/-- Embedding of `parse_criteria_value` (clean_api.py lines 75-88):

    if '+' in criteria_str:
        min_val = int(criteria_str.replace('+', ''))
        return min_val, float('inf')
    elif '-' in criteria_str:
        parts = criteria_str.split('-')
        return int(parts[0]), int(parts[1])
    else:
        val = int(criteria_str)
        return val, val

In the `'-'` branch `parts` always has at least two entries (the string
contains a `'-'`), so the index accesses cannot raise `IndexError`;
entries past `parts[1]` are never read. -/
def parse_criteria_value (criteria_str : List Char) : Option (Int × RangeMax) :=
  if criteria_str.contains '+' then
    (pyInt (pyRemoveChar '+' criteria_str)).map (fun n => (n, RangeMax.inf))
  else if criteria_str.contains '-' then
    let parts := pySplit '-' criteria_str
    match parts[0]?, parts[1]? with
    | some a, some b => do
      let n ← pyInt a
      let m ← pyInt b
      pure (n, RangeMax.fin m)
    | _, _ => none
  else
    (pyInt criteria_str).map (fun v => (v, RangeMax.fin v))

/-- The nested `property_details` dict of an inspection record; each
attribute may be absent (`Option`). -/
structure PropertyDetails where
  bedrooms : Option Int
  bathrooms : Option Int
  car_spots : Option Int
  deriving DecidableEq, Repr

/-- An inspection record, restricted to the fields the engine reads.
`property_details` itself may be absent:
`inspection.get('property_details', {})`. -/
structure Inspection where
  start_time : List Char
  property_details : Option PropertyDetails
  deriving DecidableEq, Repr

/-- The three textual criteria specs:
`similar_criteria['bedrooms' | 'bathrooms' | 'car_spots']`. -/
structure SimilarCriteria where
  bedrooms : List Char
  bathrooms : List Char
  car_spots : List Char
  deriving DecidableEq, Repr

/-- `property_details.get('bedrooms', 3)` after
`inspection.get('property_details', {})`: a missing dict or key gives the
default. -/
def bedroomsOf (i : Inspection) : Int :=
  ((i.property_details.getD ⟨none, none, none⟩).bedrooms).getD 3

/-- `property_details.get('bathrooms', 2)`. -/
def bathroomsOf (i : Inspection) : Int :=
  ((i.property_details.getD ⟨none, none, none⟩).bathrooms).getD 2

/-- `property_details.get('car_spots', 1)`. -/
def carSpotsOf (i : Inspection) : Int :=
  ((i.property_details.getD ⟨none, none, none⟩).car_spots).getD 1

/-- The retention test of the loop body of `filter_similar_properties`
(clean_api.py lines 100-114): all three attribute values lie in their
parsed ranges, inclusively, with a possibly infinite max. -/
def matchesCriteria (bed bath car : Int × RangeMax) (i : Inspection) : Bool :=
  (decide (bed.1 ≤ bedroomsOf i) && leMax (bedroomsOf i) bed.2) &&
  (decide (bath.1 ≤ bathroomsOf i) && leMax (bathroomsOf i) bath.2) &&
  (decide (car.1 ≤ carSpotsOf i) && leMax (carSpotsOf i) car.2)

/-- Embedding of `filter_similar_properties` (clean_api.py lines 90-116):
parse the three criteria specs (propagating any `ValueError` as `none`),
then keep, in order, exactly the inspections matching all three ranges. -/
def filter_similar_properties (inspections : List Inspection)
    (similar_criteria : SimilarCriteria) : Option (List Inspection) := do
  let bed ← parse_criteria_value similar_criteria.bedrooms
  let bath ← parse_criteria_value similar_criteria.bathrooms
  let car ← parse_criteria_value similar_criteria.car_spots
  pure (inspections.filter (matchesCriteria bed bath car))

/-- A 30-minute aggregation bucket (one value of the `time_slots` dict of
`analyze_competition`).  The Python key and `'time'` field is the string
`f"{hour:02d}:{minute:02d}"`; since that formatting is injective on
`(hour, minute)` pairs with `minute` in `{0, 30}` (the minute part is
exactly `"00"` or `"30"` and the hour part determines the hour), the key
is modelled as the pair itself. -/
structure TimeSlot where
  time : Int × Int
  count : Nat
  competition : String
  properties : List Inspection
  deriving DecidableEq, Repr

/-- Python `range(s, e + 1)`: the integers from `s` up to `e` inclusive,
ascending, empty when `e < s`. -/
def hourRange (s e : Int) : List Int :=
  (List.range (e + 1 - s).toNat).map (fun i => s + Int.ofNat i)

/-- Bucket initialization of `analyze_competition` (clean_api.py lines
126-136): for each hour of the window and each minute in `[0, 30]`, skip
`end_hour:30` (the `break`), and create a zero-count slot.  Dict
insertion order is preserved, so the dict is a list of slots in creation
order. -/
def initSlots (start_hour end_hour : Int) : List TimeSlot :=
  (hourRange start_hour end_hour).flatMap (fun hour =>
    if hour = end_hour then
      [⟨(hour, 0), 0, "low", []⟩]
    else
      [⟨(hour, 0), 0, "low", []⟩, ⟨(hour, 30), 0, "low", []⟩])

/-- `hour, minute = map(int, start_time.split(':'))`: succeeds exactly
when the split yields two parts and both parse as integers; any other
shape raises `ValueError` (modelled as `none`). -/
def parseHM (s : List Char) : Option (Int × Int) :=
  match (pySplit ':' s).map pyInt with
  | [some h, some m] => some (h, m)
  | _ => none

/-- The rounded slot key a record is assigned to:
`rounded_minute = 0 if minute < 30 else 30` applied to the parsed
`start_time`; `none` when the time does not parse. -/
def roundedKey (i : Inspection) : Option (Int × Int) :=
  (parseHM i.start_time).map (fun hm => (hm.1, if hm.2 < 30 then 0 else 30))

/-- One iteration of the assignment loop of `analyze_competition`
(clean_api.py lines 139-148): parse the record's `start_time` (raising on
a malformed one), round the minute down to the bucket boundary, and if a
slot with that key exists increment its count and append the record to
its properties; otherwise leave the slots unchanged. -/
def addInspection (slots : List TimeSlot) (inspection : Inspection) :
    Option (List TimeSlot) := do
  let hm ← parseHM inspection.start_time
  let key : Int × Int := (hm.1, if hm.2 < 30 then 0 else 30)
  pure (slots.map (fun slot =>
    if slot.time = key then
      { slot with count := slot.count + 1,
                  properties := slot.properties ++ [inspection] }
    else slot))

/-- The whole assignment loop, left to right over the records; the first
malformed `start_time` aborts the loop (the Python exception propagates). -/
def assignAll (slots : List TimeSlot) (inspections : List Inspection) :
    Option (List TimeSlot) :=
  inspections.foldlM addInspection slots

/-- The classification of a final count (clean_api.py lines 152-160). -/
def classifyCount (count : Nat) : String :=
  if count ≤ 2 then "low"
  else if count ≤ 5 then "medium"
  else if count ≤ 10 then "high"
  else "very-high"

/-- The classification pass (clean_api.py lines 151-160): set every
slot's competition level from its final count. -/
def classifySlots (slots : List TimeSlot) : List TimeSlot :=
  slots.map (fun slot => { slot with competition := classifyCount slot.count })

/-- `int(time_filter.get('start', '09:00').split(':')[0])`: the hour
field of a window bound.  `split` never yields an empty list, so index 0
always exists. -/
def parseHourField (s : List Char) : Option Int :=
  pyInt ((pySplit ':' s).headD [])

/-- Embedding of `analyze_competition` (clean_api.py lines 118-162),
taking the `'start'` and `'end'` entries of `time_filter`. -/
def analyze_competition (inspections : List Inspection)
    (start_str end_str : List Char) : Option (List TimeSlot) := do
  let start_hour ← parseHourField start_str
  let end_hour ← parseHourField end_str
  let slots ← assignAll (initSlots start_hour end_hour) inspections
  pure (classifySlots slots)

/-- Stable insertion step for sorting by `count`.  CPython's `sorted` is
documented stable, and a stable sort's output is uniquely determined by
the key order and the input order, so stable insertion sort is an exact
model of `sorted(competition_analysis, key=lambda x: x['count'])`. -/
def insertByCount (x : TimeSlot) : List TimeSlot → List TimeSlot
  | [] => [x]
  | y :: ys => if x.count ≤ y.count then x :: y :: ys else y :: insertByCount x ys

/-- `sorted(competition_analysis, key=lambda x: x['count'])`
(clean_api.py line 209). -/
def sortedByCount (slots : List TimeSlot) : List TimeSlot :=
  slots.foldr insertByCount []

/-- `sorted_slots[:5]` — the recommendations view (clean_api.py line 215). -/
def recommendations (slots : List TimeSlot) : List TimeSlot :=
  (sortedByCount slots).take 5

/-- Chronological order on slot keys: earlier hour, or same hour and
earlier minute. -/
def timeLt (a b : Int × Int) : Prop :=
  a.1 < b.1 ∨ (a.1 = b.1 ∧ a.2 < b.2)

/-- Sum of all bucket counts. -/
def sumCounts (slots : List TimeSlot) : Nat :=
  (slots.map TimeSlot.count).sum

/-- A record's rounded start time has a bucket among `keys`. -/
def inWindow (keys : List (Int × Int)) (i : Inspection) : Bool :=
  match roundedKey i with
  | some k => decide (k ∈ keys)
  | none => false

/-! ### Parser claims -/

/-- C1 (counterexample): the claim says `parseRange "5-3"` must fail
(max < min) and that a split yielding more than two parts must fail; the
code does neither: `"5-3"` parses to the descending pair `(5, 3)` with no
error, and `"1-2-3"` silently ignores the third part. -/
theorem parse_criteria_malformed_counterexample :
    parse_criteria_value "5-3".toList = some (5, RangeMax.fin 3) ∧
    parse_criteria_value "1-2-3".toList = some (1, RangeMax.fin 2) := by
  constructor <;> decide

/-- C1 (amended): `parse_criteria_value` fails exactly on non-numeric
input: in the `'-'` form when either of the first two parts is
non-numeric, in the `'+'` form when the remainder after stripping `'+'`
is non-numeric, and in the plain form when the string is non-numeric.
It does not reject M < N (`"5-3"` yields `(5, 3)`, not swapped and not
an error) and it does not reject extra `'-'`-separated parts
(`"1-2-3"` yields `(1, 2)`); the error raised is the `ValueError` from
`int`, there is no `InvalidCriteriaError` in the code. -/
theorem parse_criteria_fails_iff_nonnumeric :
    (∀ s a b : List Char, s.contains '+' = false → s.contains '-' = true →
      (pySplit '-' s)[0]? = some a → (pySplit '-' s)[1]? = some b →
      (pyInt a = none ∨ pyInt b = none) → parse_criteria_value s = none) ∧
    (∀ s : List Char, s.contains '+' = true → pyInt (pyRemoveChar '+' s) = none →
      parse_criteria_value s = none) ∧
    (∀ s : List Char, s.contains '+' = false → s.contains '-' = false →
      pyInt s = none → parse_criteria_value s = none) ∧
    parse_criteria_value "5-3".toList = some (5, RangeMax.fin 3) ∧
    parse_criteria_value "1-2-3".toList = some (1, RangeMax.fin 2) := by
  refine ⟨?_, ?_, ?_, by decide, by decide⟩
  · intro s a b hplus hminus ha hb hbad
    unfold parse_criteria_value
    rw [hplus, hminus]
    simp only [Bool.false_eq_true, if_false, if_true, ha, hb]
    rcases hbad with h | h <;> simp [h]
  · intro s hplus hbad
    unfold parse_criteria_value
    rw [hplus]
    simp [hbad]
  · intro s hplus hminus hbad
    unfold parse_criteria_value
    rw [hplus, hminus]
    simp [hbad]

/-- C1 (witness for the amended theorem): `"x-3"` has a non-numeric
first part, `"x+"` a non-numeric remainder, `"x"` is non-numeric; all
three fail. -/
theorem parse_criteria_fails_witness :
    parse_criteria_value "x-3".toList = none ∧
    parse_criteria_value "x+".toList = none ∧
    parse_criteria_value "x".toList = none :=
  ⟨parse_criteria_fails_iff_nonnumeric.1 "x-3".toList "x".toList "3".toList
      (by decide) (by decide) (by decide) (by decide) (Or.inl (by decide)),
   parse_criteria_fails_iff_nonnumeric.2.1 "x+".toList (by decide) (by decide),
   parse_criteria_fails_iff_nonnumeric.2.2.1 "x".toList (by decide) (by decide)
      (by decide)⟩

/-- C8: `parse_criteria_value` is a pure function of its argument (its
embedding is a Lean function, so determinism — same input, same output —
holds by construction) and is self-consistent: a plain numeral `N`
yields `(N, N)`; a spec containing `'+'` whose stripped remainder is the
numeral `N` yields `(N, +inf)`; and a spec `N-M` splitting into exactly
the two numerals `N`, `M` with `N ≤ M` yields `(N, M)`. -/
theorem parse_criteria_self_consistent :
    (∀ s : List Char, ∀ n : Int, s.contains '+' = false →
      s.contains '-' = false → pyInt s = some n →
      parse_criteria_value s = some (n, RangeMax.fin n)) ∧
    (∀ s : List Char, ∀ n : Int, s.contains '+' = true →
      pyInt (pyRemoveChar '+' s) = some n →
      parse_criteria_value s = some (n, RangeMax.inf)) ∧
    (∀ s a b : List Char, ∀ n m : Int, s.contains '+' = false →
      s.contains '-' = true → pySplit '-' s = [a, b] →
      pyInt a = some n → pyInt b = some m → n ≤ m →
      parse_criteria_value s = some (n, RangeMax.fin m)) := by
  refine ⟨?_, ?_, ?_⟩
  · intro s n hplus hminus hn
    unfold parse_criteria_value
    rw [hplus, hminus]
    simp [hn]
  · intro s n hplus hn
    unfold parse_criteria_value
    rw [hplus]
    simp [hn]
  · intro s a b n m hplus hminus hsplit ha hb _
    unfold parse_criteria_value
    rw [hplus, hminus, hsplit]
    simp [ha, hb]

/-- C8 (witness): the three forms at `"3"`, `"2+"`, `"3-4"`. -/
theorem parse_criteria_self_consistent_witness :
    parse_criteria_value "3".toList = some (3, RangeMax.fin 3) ∧
    parse_criteria_value "2+".toList = some (2, RangeMax.inf) ∧
    parse_criteria_value "3-4".toList = some (3, RangeMax.fin 4) :=
  ⟨parse_criteria_self_consistent.1 "3".toList 3 (by decide) (by decide) (by decide),
   parse_criteria_self_consistent.2.1 "2+".toList 2 (by decide) (by decide),
   parse_criteria_self_consistent.2.2 "3-4".toList "3".toList "4".toList 3 4
     (by decide) (by decide) (by decide) (by decide) (by decide) (by decide)⟩

/-! ### Similarity-filter claims -/

/-- C2: with the three criteria specs parsed to ranges `bed`, `bath`,
`car`, the filter keeps a record iff its bedrooms, bathrooms and
car-spot values (with defaults 3, 2, 1 for absent attributes, via
`bedroomsOf`/`bathroomsOf`/`carSpotsOf`) lie inclusively within the
ranges, where a max may be `+inf`; the output is a subsequence of the
input in input order, so no record is duplicated or mutated. -/
theorem filter_similar_retains_iff_in_ranges
    (inspections out : List Inspection) (crit : SimilarCriteria)
    (bed bath car : Int × RangeMax)
    (hbed : parse_criteria_value crit.bedrooms = some bed)
    (hbath : parse_criteria_value crit.bathrooms = some bath)
    (hcar : parse_criteria_value crit.car_spots = some car)
    (hout : filter_similar_properties inspections crit = some out) :
    out.Sublist inspections ∧
    ∀ i : Inspection, i ∈ out ↔ (i ∈ inspections ∧
      (bed.1 ≤ bedroomsOf i ∧ leMax (bedroomsOf i) bed.2 = true) ∧
      (bath.1 ≤ bathroomsOf i ∧ leMax (bathroomsOf i) bath.2 = true) ∧
      (car.1 ≤ carSpotsOf i ∧ leMax (carSpotsOf i) car.2 = true)) := by
  unfold filter_similar_properties at hout
  rw [hbed, hbath, hcar] at hout
  simp only [Option.bind_eq_bind, Option.some_bind, Option.pure_def,
    Option.some.injEq] at hout
  subst hout
  refine ⟨List.filter_sublist _, ?_⟩
  intro i
  rw [List.mem_filter]
  unfold matchesCriteria
  simp only [Bool.and_eq_true, decide_eq_true_eq]
  tauto

/-- C2 (witness): a `{3 bed, 2 bath, 1 car}` record against criteria
`("3-4", "2+", "1-2")` is retained, and the singleton output is a
subsequence of the singleton input. -/
theorem filter_similar_retains_witness :
    List.Sublist [(⟨"09:00".toList, some ⟨some 3, some 2, some 1⟩⟩ : Inspection)]
      [⟨"09:00".toList, some ⟨some 3, some 2, some 1⟩⟩] :=
  (filter_similar_retains_iff_in_ranges
    [⟨"09:00".toList, some ⟨some 3, some 2, some 1⟩⟩]
    [⟨"09:00".toList, some ⟨some 3, some 2, some 1⟩⟩]
    ⟨"3-4".toList, "2+".toList, "1-2".toList⟩
    (3, RangeMax.fin 4) (2, RangeMax.inf) (1, RangeMax.fin 2)
    (by decide) (by decide) (by decide) (by decide)).1

/-- C9 (counterexample): the claim says filtering the empty list yields
the empty list for every criteria, but for a criteria whose bedrooms
spec is non-numeric the code raises `ValueError` while parsing the
criteria, before ever looking at the (empty) record list. -/
theorem filter_empty_invalid_criteria_counterexample :
    filter_similar_properties [] ⟨"x".toList, "2+".toList, "1-2".toList⟩ =
      none := by
  decide

/-- C9 (amended): `filter_similar_properties` is idempotent — whenever
filtering succeeds, filtering the output again with the same criteria
returns that output unchanged — and for every criteria whose three range
specs parse, filtering the empty list yields the empty list (a criteria
with an unparseable spec raises instead, even on an empty list). -/
theorem filter_similar_idempotent :
    (∀ (inspections out : List Inspection) (crit : SimilarCriteria),
      filter_similar_properties inspections crit = some out →
      filter_similar_properties out crit = some out) ∧
    (∀ crit : SimilarCriteria,
      (parse_criteria_value crit.bedrooms).isSome = true →
      (parse_criteria_value crit.bathrooms).isSome = true →
      (parse_criteria_value crit.car_spots).isSome = true →
      filter_similar_properties [] crit = some []) := by
  constructor
  · intro inspections out crit h
    unfold filter_similar_properties at h ⊢
    cases hbed : parse_criteria_value crit.bedrooms with
    | none => rw [hbed] at h; simp [Option.bind_eq_bind] at h
    | some bed =>
      cases hbath : parse_criteria_value crit.bathrooms with
      | none => rw [hbed, hbath] at h; simp [Option.bind_eq_bind] at h
      | some bath =>
        cases hcar : parse_criteria_value crit.car_spots with
        | none => rw [hbed, hbath, hcar] at h; simp [Option.bind_eq_bind] at h
        | some car =>
          rw [hbed, hbath, hcar] at h
          simp only [Option.bind_eq_bind, Option.some_bind, Option.pure_def,
            Option.some.injEq] at h
          simp only [Option.bind_eq_bind, Option.some_bind, Option.pure_def,
            Option.some.injEq]
          subst h
          rw [List.filter_filter]
          congr 1
          funext a
          exact Bool.and_self _
  · intro crit hbed hbath hcar
    obtain ⟨bed, hb⟩ := Option.isSome_iff_exists.mp hbed
    obtain ⟨bath, hh⟩ := Option.isSome_iff_exists.mp hbath
    obtain ⟨car, hc⟩ := Option.isSome_iff_exists.mp hcar
    unfold filter_similar_properties
    rw [hb, hh, hc]
    simp

/-- C9 (witness): filtering a retained singleton twice, and filtering
the empty list under the default criteria. -/
theorem filter_similar_idempotent_witness :
    filter_similar_properties [⟨"09:00".toList, some ⟨some 3, some 2, some 1⟩⟩]
      ⟨"3-4".toList, "2+".toList, "1-2".toList⟩ =
        some [⟨"09:00".toList, some ⟨some 3, some 2, some 1⟩⟩] ∧
    filter_similar_properties [] ⟨"3-4".toList, "2+".toList, "1-2".toList⟩ =
      some [] :=
  ⟨filter_similar_idempotent.1 [⟨"09:00".toList, some ⟨some 3, some 2, some 1⟩⟩]
      [⟨"09:00".toList, some ⟨some 3, some 2, some 1⟩⟩]
      ⟨"3-4".toList, "2+".toList, "1-2".toList⟩ (by decide),
   filter_similar_idempotent.2 ⟨"3-4".toList, "2+".toList, "1-2".toList⟩
      (by decide) (by decide) (by decide)⟩

/-! ### Bucket-initialization lemmas -/

theorem hourRange_eq_nil {s e : Int} (h : e < s) : hourRange s e = [] := by
  unfold hourRange
  have h0 : (e + 1 - s).toNat = 0 := by omega
  rw [h0]
  rfl

theorem hourRange_cons {s e : Int} (h : s ≤ e) :
    hourRange s e = s :: hourRange (s + 1) e := by
  unfold hourRange
  have h1 : (e + 1 - s).toNat = (e + 1 - (s + 1)).toNat + 1 := by omega
  rw [h1, List.range_succ_eq_map, List.map_cons, List.map_map]
  refine congrArg₂ List.cons (by simp) (List.map_congr_left ?_)
  intro i _
  simp only [Function.comp_apply, Nat.succ_eq_add_one, Int.ofNat_eq_natCast]
  push_cast
  ring

theorem initSlots_self (e : Int) : initSlots e e = [⟨(e, 0), 0, "low", []⟩] := by
  unfold initSlots
  rw [hourRange_cons le_rfl, hourRange_eq_nil (by omega)]
  simp

theorem initSlots_cons {s e : Int} (h : s < e) :
    initSlots s e =
      ⟨(s, 0), 0, "low", []⟩ :: ⟨(s, 30), 0, "low", []⟩ :: initSlots (s + 1) e := by
  unfold initSlots
  rw [hourRange_cons (le_of_lt h), List.flatMap_cons, if_neg (by omega)]
  rfl

theorem initSlots_length {s e : Int} (h : s ≤ e) :
    (initSlots s e).length = 2 * (e - s).toNat + 1 := by
  obtain ⟨n, hn⟩ : ∃ n, (e - s).toNat = n := ⟨_, rfl⟩
  induction n generalizing s with
  | zero =>
    have hse : s = e := by omega
    subst hse
    rw [initSlots_self]
    simp [hn]
  | succ n ih =>
    have hlt : s < e := by omega
    rw [initSlots_cons hlt, List.length_cons, List.length_cons,
      ih (by omega) (by omega)]
    omega

theorem initSlots_keys_mem {s e : Int} (h : s ≤ e) (k : Int × Int) :
    k ∈ (initSlots s e).map TimeSlot.time ↔
      (s ≤ k.1 ∧ k.1 ≤ e ∧ (k.2 = 0 ∨ k.2 = 30) ∧ ¬(k.1 = e ∧ k.2 = 30)) := by
  obtain ⟨kh, km⟩ := k
  obtain ⟨n, hn⟩ : ∃ n, (e - s).toNat = n := ⟨_, rfl⟩
  induction n generalizing s with
  | zero =>
    have hse : s = e := by omega
    subst hse
    rw [initSlots_self]
    simp only [List.map_cons, List.map_nil, List.mem_singleton, Prod.mk.injEq]
    constructor
    · rintro ⟨rfl, rfl⟩
      refine ⟨le_rfl, le_rfl, Or.inl rfl, ?_⟩
      rintro ⟨-, hc⟩
      exact absurd hc (by omega)
    · rintro ⟨h1, h2, h3, h4⟩
      rcases h3 with rfl | rfl
      · exact ⟨by omega, rfl⟩
      · exact absurd ⟨by omega, rfl⟩ h4
  | succ n ih =>
    have hlt : s < e := by omega
    rw [initSlots_cons hlt]
    simp only [List.map_cons, List.mem_cons]
    rw [ih (by omega) (by omega)]
    simp only [Prod.mk.injEq]
    constructor
    · rintro (⟨rfl, rfl⟩ | ⟨rfl, rfl⟩ | ⟨h1, h2, h3, h4⟩)
      · exact ⟨le_rfl, by omega, Or.inl rfl, by rintro ⟨-, hc⟩; exact absurd hc (by omega)⟩
      · exact ⟨le_rfl, by omega, Or.inr rfl, by rintro ⟨hc, -⟩; omega⟩
      · exact ⟨by omega, h2, h3, h4⟩
    · rintro ⟨h1, h2, h3, h4⟩
      by_cases hks : kh = s
      · subst hks
        rcases h3 with rfl | rfl
        · exact Or.inl ⟨rfl, rfl⟩
        · exact Or.inr (Or.inl ⟨rfl, rfl⟩)
      · exact Or.inr (Or.inr ⟨by omega, h2, h3, h4⟩)

theorem initSlots_pairwise (s e : Int) :
    List.Pairwise (fun a b : TimeSlot => timeLt a.time b.time) (initSlots s e) := by
  obtain ⟨n, hn⟩ : ∃ n, (e - s).toNat = n := ⟨_, rfl⟩
  induction n generalizing s with
  | zero =>
    by_cases hse : s = e
    · subst hse
      rw [initSlots_self]
      exact List.pairwise_singleton _ _
    · have hes : e < s := by omega
      unfold initSlots
      rw [hourRange_eq_nil hes]
      exact List.Pairwise.nil
  | succ n ih =>
    have hlt : s < e := by omega
    have hmem : ∀ slot ∈ initSlots (s + 1) e, s + 1 ≤ slot.time.1 := by
      intro slot hs
      have hk : slot.time ∈ (initSlots (s + 1) e).map TimeSlot.time :=
        List.mem_map_of_mem _ hs
      exact ((initSlots_keys_mem (by omega) slot.time).mp hk).1
    rw [initSlots_cons hlt]
    refine List.Pairwise.cons ?_ (List.Pairwise.cons ?_ (ih (s + 1) (by omega)))
    · intro slot hs
      rcases List.mem_cons.mp hs with rfl | hs
      · exact Or.inr ⟨rfl, show (0 : Int) < 30 by omega⟩
      · exact Or.inl (show s < slot.time.1 by have := hmem _ hs; omega)
    · intro slot hs
      exact Or.inl (show s < slot.time.1 by have := hmem _ hs; omega)

theorem initSlots_fields (s e : Int) :
    ∀ slot ∈ initSlots s e,
      slot.count = 0 ∧ slot.properties = [] ∧ slot.competition = "low" := by
  intro slot hmem
  unfold initSlots at hmem
  rw [List.mem_flatMap] at hmem
  obtain ⟨h, -, hs⟩ := hmem
  by_cases hc : h = e <;> simp only [hc, if_true, if_false] at hs <;>
    simp only [List.mem_singleton, List.mem_cons, List.mem_nil_iff, or_false] at hs
  · subst hs
    exact ⟨rfl, rfl, rfl⟩
  · rcases hs with rfl | rfl <;> exact ⟨rfl, rfl, rfl⟩

/-- C3: for every window `[startHour, endHour]` with `startHour ≤
endHour`, bucket initialization creates exactly
`2 * (endHour - startHour) + 1` buckets, in strictly ascending
chronological order, whose keys are exactly the 30-minute boundaries
from `startHour:00` through `endHour:00` inclusive (`endHour:30` is
never created), each starting with count 0, empty members and
competition `"low"`. -/
theorem aggregate_bucket_initialization (s e : Int) (h : s ≤ e) :
    (initSlots s e).length = 2 * (e - s).toNat + 1 ∧
    List.Pairwise (fun a b : TimeSlot => timeLt a.time b.time) (initSlots s e) ∧
    (∀ k : Int × Int, k ∈ (initSlots s e).map TimeSlot.time ↔
      (s ≤ k.1 ∧ k.1 ≤ e ∧ (k.2 = 0 ∨ k.2 = 30) ∧ ¬(k.1 = e ∧ k.2 = 30))) ∧
    ∀ slot ∈ initSlots s e,
      slot.count = 0 ∧ slot.properties = [] ∧ slot.competition = "low" :=
  ⟨initSlots_length h, initSlots_pairwise s e,
   fun k => initSlots_keys_mem h k, initSlots_fields s e⟩

/-- C3 (witness): the window `[9, 11]` has `2 * 2 + 1 = 5` buckets. -/
theorem aggregate_bucket_initialization_witness :
    (initSlots 9 11).length = 2 * ((11 : Int) - 9).toNat + 1 :=
  (aggregate_bucket_initialization 9 11 (by omega)).1

/-! ### Assignment, classification and abort claims -/

/-- C4: a record whose `start_time` parses as `(h, m)` is assigned to
the bucket keyed `(h, 0)` when `m < 30` and `(h, 30)` otherwise — the
minute is rounded down — and only that bucket is changed (count
incremented, record appended); when no bucket in the window has that
key, the slots are returned unchanged: the record is silently excluded,
not an error. -/
theorem aggregate_assignment_rounding
    (slots : List TimeSlot) (i : Inspection) (h m : Int)
    (hp : parseHM i.start_time = some (h, m)) :
    addInspection slots i = some (slots.map (fun slot =>
      if slot.time = (h, if m < 30 then 0 else 30) then
        { slot with count := slot.count + 1,
                    properties := slot.properties ++ [i] }
      else slot)) ∧
    ((h, if m < 30 then 0 else 30) ∉ slots.map TimeSlot.time →
      addInspection slots i = some slots) := by
  have hfirst : addInspection slots i = some (slots.map (fun slot =>
      if slot.time = (h, if m < 30 then 0 else 30) then
        { slot with count := slot.count + 1,
                    properties := slot.properties ++ [i] }
      else slot)) := by
    unfold addInspection
    rw [hp]
    rfl
  refine ⟨hfirst, fun hno => ?_⟩
  rw [hfirst]
  congr 1
  have hid : ∀ slot ∈ slots, (if slot.time = (h, if m < 30 then 0 else 30) then
      { slot with count := slot.count + 1,
                  properties := slot.properties ++ [i] }
    else slot) = slot := by
    intro slot hs
    rw [if_neg]
    intro hkey
    exact hno (hkey ▸ List.mem_map_of_mem _ hs)
  calc slots.map _ = slots.map id := List.map_congr_left hid
  _ = slots := List.map_id slots

/-- C4 (witness): `"09:29"` rounds down to the `09:00` bucket (count
goes 0 → 1 there), and a `"10:45"` record, whose rounded key `(10, 30)`
has no bucket in the window `[9, 9]`, leaves the slots unchanged. -/
theorem aggregate_assignment_rounding_witness :
    addInspection [⟨(9, 0), 0, "low", []⟩] ⟨"09:29".toList, none⟩ =
      some [⟨(9, 0), 1, "low", [⟨"09:29".toList, none⟩]⟩] ∧
    addInspection [⟨(9, 0), 0, "low", []⟩] ⟨"10:45".toList, none⟩ =
      some [⟨(9, 0), 0, "low", []⟩] :=
  ⟨by
    rw [(aggregate_assignment_rounding [⟨(9, 0), 0, "low", []⟩]
      ⟨"09:29".toList, none⟩ 9 29 (by decide)).1]
    decide,
   (aggregate_assignment_rounding [⟨(9, 0), 0, "low", []⟩]
      ⟨"10:45".toList, none⟩ 10 45 (by decide)).2 (by decide)⟩

/-- C5: in the output of `analyze_competition`, every bucket's
competition level is determined by its final count through the
inclusive, gap-free thresholds: `count ≤ 2` low, `3 ≤ count ≤ 5` medium,
`6 ≤ count ≤ 10` high, `count > 10` very-high. -/
theorem competition_level_thresholds
    (inspections : List Inspection) (start_str end_str : List Char)
    (out : List TimeSlot)
    (hout : analyze_competition inspections start_str end_str = some out) :
    ∀ slot ∈ out,
      (slot.count ≤ 2 → slot.competition = "low") ∧
      (3 ≤ slot.count ∧ slot.count ≤ 5 → slot.competition = "medium") ∧
      (6 ≤ slot.count ∧ slot.count ≤ 10 → slot.competition = "high") ∧
      (10 < slot.count → slot.competition = "very-high") := by
  unfold analyze_competition at hout
  cases h1 : parseHourField start_str with
  | none => rw [h1] at hout; simp [Option.bind_eq_bind] at hout
  | some sh =>
  cases h2 : parseHourField end_str with
  | none => rw [h1, h2] at hout; simp [Option.bind_eq_bind] at hout
  | some eh =>
  rw [h1, h2] at hout
  simp only [Option.bind_eq_bind, Option.some_bind, Option.pure_def] at hout
  cases h3 : assignAll (initSlots sh eh) inspections with
  | none => rw [h3] at hout; simp at hout
  | some mid =>
  rw [h3] at hout
  simp only [Option.some_bind, Option.some.injEq] at hout
  subst hout
  intro slot hs
  unfold classifySlots at hs
  rw [List.mem_map] at hs
  obtain ⟨s0, -, rfl⟩ := hs
  refine ⟨fun hc => ?_, fun hc => ?_, fun hc => ?_, fun hc => ?_⟩
  · have hc0 : s0.count ≤ 2 := hc
    show classifyCount s0.count = "low"
    unfold classifyCount
    rw [if_pos hc0]
  · have hc0 : 3 ≤ s0.count ∧ s0.count ≤ 5 := hc
    show classifyCount s0.count = "medium"
    unfold classifyCount
    rw [if_neg (by omega), if_pos (by omega)]
  · have hc0 : 6 ≤ s0.count ∧ s0.count ≤ 10 := hc
    show classifyCount s0.count = "high"
    unfold classifyCount
    rw [if_neg (by omega), if_neg (by omega), if_pos (by omega)]
  · have hc0 : 10 < s0.count := hc
    show classifyCount s0.count = "very-high"
    unfold classifyCount
    rw [if_neg (by omega), if_neg (by omega), if_neg (by omega)]

/-- C5 (witness): three same-time records in a one-bucket window give
count 3, classified `"medium"`. -/
theorem competition_level_thresholds_witness :
    TimeSlot.competition
      ⟨(9, 0), 3, "medium",
        [⟨"09:00".toList, none⟩, ⟨"09:01".toList, none⟩,
         ⟨"09:02".toList, none⟩]⟩ = "medium" :=
  (competition_level_thresholds
    [⟨"09:00".toList, none⟩, ⟨"09:01".toList, none⟩, ⟨"09:02".toList, none⟩]
    "09:00".toList "09:00".toList
    [⟨(9, 0), 3, "medium",
      [⟨"09:00".toList, none⟩, ⟨"09:01".toList, none⟩,
       ⟨"09:02".toList, none⟩]⟩]
    (by decide) _ (by decide)).2.1 (by decide)

/-- Once some record of the list has an unparseable `start_time`, the
whole assignment loop returns `none`, whatever the slots. -/
theorem assignAll_none {inspections : List Inspection} {i : Inspection}
    (hmem : i ∈ inspections) (hbad : parseHM i.start_time = none) :
    ∀ slots, assignAll slots inspections = none := by
  induction inspections with
  | nil => cases hmem
  | cons x rest ih =>
    intro slots
    unfold assignAll
    rw [List.foldlM_cons]
    rcases List.mem_cons.mp hmem with rfl | hmem2
    · have hx : addInspection slots i = none := by
        unfold addInspection
        rw [hbad]
        rfl
      rw [hx]
      rfl
    · cases hx : addInspection slots x with
      | none => rfl
      | some mid => exact ih hmem2 mid

/-- C10: if any input record's `start_time` does not parse as two
`':'`-separated integers, `analyze_competition` raises (returns `none`):
the offending record is not skipped and no partial bucket list is
produced. -/
theorem malformed_start_time_aborts
    (inspections : List Inspection) (start_str end_str : List Char)
    (i : Inspection) (hmem : i ∈ inspections)
    (hbad : parseHM i.start_time = none) :
    analyze_competition inspections start_str end_str = none := by
  unfold analyze_competition
  cases h1 : parseHourField start_str with
  | none => rfl
  | some sh =>
  cases h2 : parseHourField end_str with
  | none => rfl
  | some eh =>
  have ha := assignAll_none hmem hbad (initSlots sh eh)
  simp [Option.bind_eq_bind, ha]

/-- C10 (witness): one record with `start_time` `"xx"` makes the whole
aggregation fail. -/
theorem malformed_start_time_aborts_witness :
    analyze_competition [⟨"xx".toList, none⟩] "09:00".toList "16:00".toList =
      none :=
  malformed_start_time_aborts [⟨"xx".toList, none⟩] "09:00".toList
    "16:00".toList ⟨"xx".toList, none⟩ (by decide) (by decide)

/-! ### Ranking lemmas -/

theorem length_insertByCount (x : TimeSlot) (l : List TimeSlot) :
    (insertByCount x l).length = l.length + 1 := by
  induction l with
  | nil => rfl
  | cons y ys ih =>
    unfold insertByCount
    split
    · simp
    · simp [ih]

theorem length_sortedByCount (l : List TimeSlot) :
    (sortedByCount l).length = l.length := by
  induction l with
  | nil => rfl
  | cons y ys ih =>
    show (insertByCount y (sortedByCount ys)).length = ys.length + 1
    rw [length_insertByCount, ih]

theorem mem_insertByCount {a x : TimeSlot} {l : List TimeSlot} :
    a ∈ insertByCount x l ↔ a = x ∨ a ∈ l := by
  induction l with
  | nil => simp [insertByCount]
  | cons y ys ih =>
    unfold insertByCount
    split
    · simp [List.mem_cons]
    · simp only [List.mem_cons, ih]
      tauto

theorem pairwise_insertByCount {x : TimeSlot} {l : List TimeSlot}
    (h : List.Pairwise (fun a b : TimeSlot => a.count ≤ b.count) l) :
    List.Pairwise (fun a b : TimeSlot => a.count ≤ b.count) (insertByCount x l) := by
  induction l with
  | nil => exact List.pairwise_singleton _ _
  | cons y ys ih =>
    rw [List.pairwise_cons] at h
    obtain ⟨hy, hys⟩ := h
    unfold insertByCount
    split
    · rename_i hxy
      refine List.Pairwise.cons ?_ (List.Pairwise.cons hy hys)
      intro b hb
      rcases List.mem_cons.mp hb with rfl | hb2
      · exact hxy
      · exact le_trans hxy (hy b hb2)
    · rename_i hxy
      refine List.Pairwise.cons ?_ (ih hys)
      intro b hb
      rcases mem_insertByCount.mp hb with rfl | hb2
      · omega
      · exact hy b hb2

theorem sortedByCount_pairwise (l : List TimeSlot) :
    List.Pairwise (fun a b : TimeSlot => a.count ≤ b.count) (sortedByCount l) := by
  induction l with
  | nil => exact List.Pairwise.nil
  | cons y ys ih => exact pairwise_insertByCount ih

theorem filter_insertByCount (x : TimeSlot) (l : List TimeSlot) (n : Nat) :
    (insertByCount x l).filter (fun s => s.count == n) =
      if x.count = n then x :: l.filter (fun s => s.count == n)
      else l.filter (fun s => s.count == n) := by
  induction l with
  | nil =>
    by_cases hx : x.count = n <;>
      simp [insertByCount, List.filter_cons, List.filter_nil, hx]
  | cons y ys ih =>
    unfold insertByCount
    split
    · rename_i hxy
      by_cases hx : x.count = n <;> simp [List.filter_cons, hx]
    · rename_i hxy
      by_cases hy : y.count = n
      · have hx : x.count ≠ n := by omega
        simp [List.filter_cons, hy, hx, ih]
      · by_cases hx : x.count = n <;>
          simp [List.filter_cons, hy, hx, ih]

theorem filter_sortedByCount (l : List TimeSlot) (n : Nat) :
    (sortedByCount l).filter (fun s => s.count == n) =
      l.filter (fun s => s.count == n) := by
  induction l with
  | nil => rfl
  | cons y ys ih =>
    show (insertByCount y (sortedByCount ys)).filter _ = _
    rw [filter_insertByCount]
    by_cases hy : y.count = n
    · rw [if_pos hy, ih]
      simp [List.filter_cons, hy]
    · rw [if_neg hy, ih]
      simp [List.filter_cons, hy]

/-- C6: the recommendations view is the bucket list stably sorted
ascending by `count` and truncated to the first 5 entries: its length is
`min 5 (number of buckets)`, its counts are non-decreasing, and the sort
is stable — for every count value, the buckets carrying that count
appear in the sorted list exactly in their original (chronological)
order. -/
theorem recommendations_sorted_stable_truncated (slots : List TimeSlot) :
    recommendations slots = (sortedByCount slots).take 5 ∧
    (recommendations slots).length = min 5 slots.length ∧
    List.Pairwise (fun a b : TimeSlot => a.count ≤ b.count)
      (recommendations slots) ∧
    ∀ n : Nat, (sortedByCount slots).filter (fun s => s.count == n) =
      slots.filter (fun s => s.count == n) :=
  ⟨rfl,
   by unfold recommendations; rw [List.length_take, length_sortedByCount],
   List.Pairwise.sublist (List.take_sublist _ _) (sortedByCount_pairwise slots),
   fun n => filter_sortedByCount slots n⟩

/-! ### Count-conservation lemmas -/

theorem initSlots_keys_nodup (s e : Int) :
    ((initSlots s e).map TimeSlot.time).Nodup := by
  have hp := (initSlots_pairwise s e).map TimeSlot.time
    (fun a b (h : timeLt a.time b.time) => h)
  exact hp.imp (fun {a b} h => by
    rintro rfl
    rcases h with h | ⟨-, h⟩ <;> omega)

theorem sumCounts_initSlots (s e : Int) : sumCounts (initSlots s e) = 0 := by
  unfold sumCounts
  apply List.sum_eq_zero
  intro x hx
  rw [List.mem_map] at hx
  obtain ⟨slot, hs, rfl⟩ := hx
  exact (initSlots_fields s e slot hs).1

theorem addInspection_parses {slots out : List TimeSlot} {i : Inspection}
    (h : addInspection slots i = some out) :
    ∃ k, roundedKey i = some k ∧ out = slots.map (fun slot =>
      if slot.time = k then
        { slot with count := slot.count + 1,
                    properties := slot.properties ++ [i] }
      else slot) := by
  unfold addInspection at h
  cases hp : parseHM i.start_time with
  | none => rw [hp] at h; simp [Option.bind_eq_bind] at h
  | some hm =>
    rw [hp] at h
    simp only [Option.bind_eq_bind, Option.some_bind, Option.pure_def,
      Option.some.injEq] at h
    exact ⟨(hm.1, if hm.2 < 30 then 0 else 30), by rw [roundedKey, hp]; rfl,
      h.symm⟩

theorem addInspection_keys {slots out : List TimeSlot} {i : Inspection}
    (h : addInspection slots i = some out) :
    out.map TimeSlot.time = slots.map TimeSlot.time := by
  obtain ⟨k, -, rfl⟩ := addInspection_parses h
  rw [List.map_map]
  refine List.map_congr_left ?_
  intro s _
  by_cases ht : s.time = k <;> simp [Function.comp, ht]

theorem addInspection_sync {slots out : List TimeSlot} {i : Inspection}
    (h : addInspection slots i = some out)
    (hs : ∀ s ∈ slots, s.count = s.properties.length) :
    ∀ s ∈ out, s.count = s.properties.length := by
  obtain ⟨k, -, rfl⟩ := addInspection_parses h
  intro s hsm
  rw [List.mem_map] at hsm
  obtain ⟨s0, hs0, rfl⟩ := hsm
  by_cases ht : s0.time = k <;> simp [ht, hs s0 hs0]

theorem sum_map_bump (slots : List TimeSlot) (k : Int × Int) (i : Inspection)
    (hnd : (slots.map TimeSlot.time).Nodup) :
    sumCounts (slots.map (fun slot =>
      if slot.time = k then
        { slot with count := slot.count + 1,
                    properties := slot.properties ++ [i] }
      else slot)) =
      sumCounts slots + (if k ∈ slots.map TimeSlot.time then 1 else 0) := by
  induction slots with
  | nil => rfl
  | cons y ys ih =>
    rw [List.map_cons, List.map_cons] at *
    have hnd2 : (ys.map TimeSlot.time).Nodup := (List.nodup_cons.mp hnd).2
    unfold sumCounts at *
    by_cases hy : y.time = k
    · have hknot : k ∉ ys.map TimeSlot.time := by
        rw [← hy]
        exact (List.nodup_cons.mp hnd).1
      rw [if_pos hy]
      simp only [List.map_cons, List.sum_cons]
      rw [ih hnd2, if_neg hknot,
        if_pos (by rw [List.mem_cons]; exact Or.inl hy.symm)]
      show y.count + 1 + _ = _
      omega
    · rw [if_neg hy]
      simp only [List.map_cons, List.sum_cons]
      rw [ih hnd2]
      by_cases hk2 : k ∈ ys.map TimeSlot.time
      · rw [if_pos hk2, if_pos (List.mem_cons_of_mem _ hk2)]
        omega
      · rw [if_neg hk2, if_neg (by
          rw [List.mem_cons]
          rintro (h | h)
          · exact hy h.symm
          · exact hk2 h)]
        omega

theorem inWindow_iff (keys : List (Int × Int)) (i : Inspection) :
    inWindow keys i = true ↔ ∃ k, roundedKey i = some k ∧ k ∈ keys := by
  unfold inWindow
  cases h : roundedKey i <;> simp [h]

theorem assignAll_invariant (inspections : List Inspection) :
    ∀ slots out : List TimeSlot,
      (slots.map TimeSlot.time).Nodup →
      (∀ s ∈ slots, s.count = s.properties.length) →
      assignAll slots inspections = some out →
      out.map TimeSlot.time = slots.map TimeSlot.time ∧
      sumCounts out = sumCounts slots +
        inspections.countP (inWindow (slots.map TimeSlot.time)) ∧
      ∀ s ∈ out, s.count = s.properties.length := by
  induction inspections with
  | nil =>
    intro slots out _ hsync h
    have hso : slots = out := by
      simpa [assignAll, List.foldlM_nil] using h
    subst hso
    exact ⟨rfl, by simp [List.countP_nil], hsync⟩
  | cons x rest ih =>
    intro slots out hnd hsync h
    unfold assignAll at h
    rw [List.foldlM_cons] at h
    cases hx : addInspection slots x with
    | none => rw [hx] at h; simp at h
    | some mid =>
      rw [hx] at h
      simp only [Option.bind_eq_bind, Option.some_bind] at h
      have hkeys := addInspection_keys hx
      have hnd2 : (mid.map TimeSlot.time).Nodup := by rw [hkeys]; exact hnd
      have hsync2 := addInspection_sync hx hsync
      obtain ⟨k, hk, hmid⟩ := addInspection_parses hx
      have hsum : sumCounts mid = sumCounts slots +
          (if k ∈ slots.map TimeSlot.time then 1 else 0) := by
        rw [hmid]
        exact sum_map_bump slots k x hnd
      obtain ⟨ih1, ih2, ih3⟩ := ih mid out hnd2 hsync2 h
      refine ⟨ih1.trans hkeys, ?_, ih3⟩
      rw [ih2, hkeys, hsum, List.countP_cons]
      have hwx : inWindow (slots.map TimeSlot.time) x =
          decide (k ∈ slots.map TimeSlot.time) := by
        unfold inWindow
        rw [hk]
      rw [hwx]
      by_cases hmem : k ∈ slots.map TimeSlot.time <;> (simp [hmem]; try omega)

theorem classifySlots_counts (l : List TimeSlot) :
    (classifySlots l).map TimeSlot.count = l.map TimeSlot.count := by
  unfold classifySlots
  rw [List.map_map]
  exact List.map_congr_left (fun s _ => rfl)

theorem classifySlots_sync (l : List TimeSlot)
    (h : ∀ s ∈ l, s.count = s.properties.length) :
    ∀ s ∈ classifySlots l, s.count = s.properties.length := by
  intro s hs
  unfold classifySlots at hs
  rw [List.mem_map] at hs
  obtain ⟨s0, hs0, rfl⟩ := hs
  exact h s0 hs0

/-- C7: when every record's `start_time` parses, the sum of all bucket
counts produced by `analyze_competition` is at most the number of input
records, with equality exactly when every record's rounded start time
has a bucket in the window; and every bucket's count equals the length
of its members list. -/
theorem aggregate_count_conservation
    (inspections : List Inspection) (start_str end_str : List Char)
    (sh eh : Int) (out : List TimeSlot)
    (hsh : parseHourField start_str = some sh)
    (heh : parseHourField end_str = some eh)
    (_hparse : ∀ i ∈ inspections, (parseHM i.start_time).isSome = true)
    (hout : analyze_competition inspections start_str end_str = some out) :
    sumCounts out ≤ inspections.length ∧
    (sumCounts out = inspections.length ↔
      ∀ i ∈ inspections, ∃ k, roundedKey i = some k ∧
        k ∈ (initSlots sh eh).map TimeSlot.time) ∧
    ∀ slot ∈ out, slot.count = slot.properties.length := by
  unfold analyze_competition at hout
  rw [hsh, heh] at hout
  simp only [Option.bind_eq_bind, Option.some_bind, Option.pure_def] at hout
  cases hmid : assignAll (initSlots sh eh) inspections with
  | none => rw [hmid] at hout; simp at hout
  | some mid =>
  rw [hmid] at hout
  simp only [Option.some_bind, Option.some.injEq] at hout
  subst hout
  have hinit0 : ∀ s ∈ initSlots sh eh, s.count = s.properties.length := by
    intro s hs
    have hf := initSlots_fields sh eh s hs
    rw [hf.1, hf.2.1]
    rfl
  obtain ⟨h1, h2, h3⟩ := assignAll_invariant inspections (initSlots sh eh) mid
    (initSlots_keys_nodup sh eh) hinit0 hmid
  have hsum : sumCounts (classifySlots mid) = sumCounts mid := by
    unfold sumCounts
    rw [classifySlots_counts]
  rw [hsum, h2, sumCounts_initSlots]
  simp only [Nat.zero_add]
  refine ⟨List.countP_le_length _, ?_, classifySlots_sync mid h3⟩
  rw [List.countP_eq_length]
  constructor
  · intro hall i hi
    exact (inWindow_iff _ i).mp (hall i hi)
  · intro hall i hi
    exact (inWindow_iff _ i).mpr (hall i hi)

/-- C7 (witness): one record `"09:05"` in the window `[9, 9]` gives
total count 1 = number of records. -/
theorem aggregate_count_conservation_witness :
    sumCounts [⟨(9, 0), 1, "low", [⟨"09:05".toList, none⟩]⟩] ≤
      [(⟨"09:05".toList, none⟩ : Inspection)].length :=
  (aggregate_count_conservation [⟨"09:05".toList, none⟩] "09:00".toList
    "09:00".toList 9 9 [⟨(9, 0), 1, "low", [⟨"09:05".toList, none⟩]⟩]
    (by decide) (by decide) (by decide) (by decide)).1

end Listy
